import Mathlib

/-!
# Verification of the `mgrt` revision engine

A shallow embedding of the core of the `mgrt` Go package (`mgrt.go`):
the `Revision` value type, the binary-tree `Collection`, the textual
codec (`Revision.String` / `UnmarshalRevision`), and the execution
engine (`RevisionPerformed`, `Revision.Perform`, `PerformRevisions`).

Modelling conventions:

* Strings are Lean `String`s; the decoder works on `List Char` (the Go
  decoder works rune by rune, and a Lean `Char` is a unicode scalar
  value, exactly a Go rune).  `Revision.Title` operates on bytes in Go;
  it is modelled on `List Char`, identifying bytes with characters
  (exact for ASCII inputs).
* Go runtime panics (nil-pointer dereference in `node.walk`, negative
  slice index in `UnmarshalRevision`) are modelled as explicit `none` /
  `.panic` outcomes.
* The database handle is modelled as the state the engine can observe
  and change: the rows of `mgrt_revisions` plus a log of every SQL text
  passed to `db.Exec` for a revision body.  Queries and statements
  themselves are assumed to succeed (no driver errors); `time.Now()` is
  passed in as an explicit `now` parameter.
* `strings.TrimSpace` is modelled over the ASCII and Latin-1 whitespace
  characters (the Unicode space category beyond Latin-1 is not
  modelled; no claim depends on it).
-/

namespace Mgrt

/-- Go `unicode.IsSpace`, restricted to ASCII / Latin-1:
space, \t, \n, \v, \f, \r, NEL (U+0085) and NBSP (U+00A0). -/
def goSpace (c : Char) : Bool :=
  c = ' ' || c = '\t' || c = '\n' || c = '\x0b' || c = '\x0c' || c = '\r' ||
  c = '\x85' || c = '\xa0'

/-- Go `strings.TrimSpace` on a character list. -/
def trimL (l : List Char) : List Char :=
  ((l.dropWhile goSpace).reverse.dropWhile goSpace).reverse

/-- Go `strings.TrimSpace` on a string. -/
def trimS (s : String) : String :=
  String.mk (trimL s.data)

/-! ## Revision IDs: Go `time.Parse("20060102150405", id)` and `Time.Unix`

`time.Parse` with this layout succeeds exactly on 14 decimal digits
`yyyymmddhhmmss` with `1 ≤ mm ≤ 12`, `1 ≤ dd ≤ daysIn(mm, yyyy)`,
`hh ≤ 23`, `mm ≤ 59`, `ss ≤ 59`.  On success `t.Unix()` is the number
of seconds since 1970-01-01T00:00:00 UTC (proleptic Gregorian). -/

def isLeap (y : Nat) : Bool :=
  y % 4 = 0 && (y % 100 != 0 || y % 400 = 0)

def daysInMonth (m y : Nat) : Nat :=
  if m = 2 then (if isLeap y then 29 else 28)
  else if m = 4 ∨ m = 6 ∨ m = 9 ∨ m = 11 then 30
  else 31

def digitsToNat (l : List Char) : Nat :=
  l.foldl (fun a c => a * 10 + (c.toNat - 48)) 0

/-- Days from 1970-01-01 to `y-m-d` in the proleptic Gregorian calendar
(Howard Hinnant's `days_from_civil`, as used by Go's time package
semantics). -/
def daysFromCivil (y m d : Int) : Int :=
  let y1 : Int := if m ≤ 2 then y - 1 else y
  let era : Int := (if 0 ≤ y1 then y1 else y1 - 399) / 400
  let yoe : Int := y1 - era * 400
  let mp : Int := if 2 < m then m - 3 else m + 9
  let doy : Int := (153 * mp + 2) / 5 + d - 1
  let doe : Int := yoe * 365 + yoe / 4 - yoe / 100 + doy
  era * 146097 + doe - 719468

def unixOf (y mo d h mi s : Nat) : Int :=
  daysFromCivil y mo d * 86400 + h * 3600 + mi * 60 + s

/-- `time.Parse("20060102150405", ·)` followed by `.Unix()`:
`some unixSeconds` when the ID is valid, `none` when `time.Parse`
errors (`ErrInvalid` in the callers). -/
def parseRevisionId (l : List Char) : Option Int :=
  if l.length = 14 ∧ ∀ c ∈ l, c.isDigit then
    let y := digitsToNat (l.take 4)
    let mo := digitsToNat ((l.drop 4).take 2)
    let d := digitsToNat ((l.drop 6).take 2)
    let h := digitsToNat ((l.drop 8).take 2)
    let mi := digitsToNat ((l.drop 10).take 2)
    let s := digitsToNat ((l.drop 12).take 2)
    if 1 ≤ mo ∧ mo ≤ 12 ∧ 1 ≤ d ∧ d ≤ daysInMonth mo y ∧
       h ≤ 23 ∧ mi ≤ 59 ∧ s ≤ 59 then
      some (unixOf y mo d h mi s)
    else none
  else none

/-! ## The data model -/

/-- The `Revision` struct.  `PerformedAt` is only written by
`GetRevisions` (not involved in any claim) and is omitted. -/
structure Revision where
  ID : String
  Author : String
  Comment : String
  SQL : String
deriving DecidableEq, Repr

/-- The error values of the package: the sentinels `ErrInvalid` and
`ErrPerformed`, the wrapper `RevisionError{ID, Err}`, and the aggregate
`Errors` slice. -/
inductive Err where
  | errInvalid : Err
  | errPerformed : Err
  | revisionError (id : String) (err : Err) : Err
  | errors (es : List Err) : Err

/-- `(*RevisionError).Unwrap`; the other error values have no `Unwrap`
method. -/
def unwrapErr : Err → Option Err
  | .revisionError _ e => some e
  | _ => none

/-- `errors.Is(e, ErrPerformed)`: equality, else follow `Unwrap`. -/
def isPerformed : Err → Bool
  | .errPerformed => true
  | .revisionError _ e => isPerformed e
  | _ => false

/-- `Errors.err`: `nil` for an empty aggregate, the aggregate itself
otherwise. -/
def errsErr (es : List Err) : Option Err :=
  if es.isEmpty then none else some (.errors es)

/-! ## The Collection (binary tree) -/

/-- A `*node` pointer: `leaf` is the nil pointer. -/
inductive Tree where
  | leaf : Tree
  | node (left : Tree) (val : Int) (rev : Revision) (right : Tree) : Tree
deriving DecidableEq, Repr

/-- In-order traversal of a tree, keys paired with revisions.
`node.walk` visits exactly the `.rev` fields in this order. -/
def walkT : Tree → List (Int × Revision)
  | .leaf => []
  | .node l v r rt => walkT l ++ (v, r) :: walkT rt

/-- `insertNode`: standard BST insertion; duplicates go right. -/
def insertNode : Tree → Int → Revision → Tree
  | .leaf, v, r => .node .leaf v r .leaf
  | .node l nv nr rt, v, r =>
    if v < nv then .node (insertNode l v r) nv nr rt
    else .node l nv nr (insertNode rt v r)

structure Collection where
  len : Nat
  root : Tree
deriving DecidableEq, Repr

/-- `var c Collection` (zero value). -/
def emptyCollection : Collection := ⟨0, .leaf⟩

/-- `Collection.Put`: `ErrInvalid` on an empty or unparseable ID,
otherwise insert keyed by the Unix seconds of the parsed ID. -/
def Collection.put (c : Collection) (r : Revision) : Collection × Option Err :=
  if r.ID = "" then (c, some .errInvalid)
  else
    match parseRevisionId r.ID.data with
    | none => (c, some .errInvalid)
    | some k => (⟨c.len + 1, insertNode c.root k r⟩, none)

/-- `Collection.Slice`: Go calls `c.root.walk(...)`; on an empty
collection the root is nil and `walk` dereferences it — a runtime
panic, modelled as `none`. -/
def Collection.slice (c : Collection) : Option (List Revision) :=
  match c.root with
  | .leaf => none
  | .node l v r rt => some ((walkT (.node l v r rt)).map Prod.snd)

/-- The collection built by `PerformRevisions`: every revision is
`Put`, the returned error is discarded. -/
def putAll (revs : List Revision) : Collection :=
  revs.foldl (fun c r => (c.put r).1) emptyCollection

/-- `Put` succeeds exactly on these revisions. -/
def validB (r : Revision) : Bool :=
  (r.ID != "") && (parseRevisionId r.ID.data).isSome

/-- Sorting key of a revision: the Unix seconds of its parsed ID. -/
def keyOf (r : Revision) : Int :=
  (parseRevisionId r.ID.data).getD 0

/-! ## The execution engine -/

/-- One row of the `mgrt_revisions` tracking table. -/
structure Row where
  id : String
  author : String
  comment : String
  sql : String
  performedAt : Int
deriving DecidableEq, Repr

/-- The observable database state: the tracking table plus the log of
revision SQL texts passed to `db.Exec`. -/
structure DB where
  rows : List Row
  execLog : List String
deriving DecidableEq, Repr

/-- `RevisionPerformed`: `ErrInvalid` on an unparseable ID, then
`SELECT COUNT(id) FROM mgrt_revisions WHERE id = <ID>`; a positive
count yields `RevisionError{ID, ErrPerformed}`. -/
def revisionPerformed (db : DB) (rev : Revision) : Option Err :=
  match parseRevisionId rev.ID.data with
  | none => some .errInvalid
  | some _ =>
    let count := (db.rows.filter (fun row => row.id == rev.ID)).length
    if 0 < count then some (.revisionError rev.ID .errPerformed) else none

/-- `Revision.Perform`: empty SQL is a no-op; otherwise check
`revisionPerformed`, execute the SQL, and insert the tracking row with
`performed_at = now`. -/
def Revision.perform (r : Revision) (db : DB) (now : Int) : DB × Option Err :=
  if r.SQL = "" then (db, none)
  else
    match revisionPerformed db r with
    | some e => (db, some e)
    | none =>
      let db1 : DB := ⟨db.rows, db.execLog ++ [r.SQL]⟩
      let db2 : DB := ⟨db1.rows ++ [⟨r.ID, r.Author, r.Comment, r.SQL, now⟩], db1.execLog⟩
      (db2, none)

/-- The loop body of `PerformRevisions`: `ErrPerformed` (possibly
wrapped) is appended to the aggregate and iteration continues; any
other error is returned directly. -/
def performLoop (now : Int) : DB → List Revision → List Err → DB × Option Err
  | db, [], acc => (db, errsErr acc)
  | db, r :: rest, acc =>
    match r.perform db now with
    | (db1, none) => performLoop now db1 rest acc
    | (db1, some e) =>
      if isPerformed e then performLoop now db1 rest (acc ++ [e])
      else (db1, some e)

/-- `PerformRevisions`: put everything in a collection (ignoring `Put`
errors), take the sorted slice (panics — `none` — on an empty
collection), then run the loop. -/
def performRevisions (db : DB) (now : Int) (revs : List Revision) :
    Option (DB × Option Err) :=
  match (putAll revs).slice with
  | none => none
  | some l => some (performLoop now db l [])

/-! ## `Revision.Title` -/

/-- Index of the first LF, Go `bytes.IndexByte(b, '\n')` (with `none`
for -1). -/
def indexLF : List Char → Option Nat
  | [] => none
  | c :: cs => if c = '\n' then some 0 else (indexLF cs).map (· + 1)

/-- The LF cut at the end of `Revision.Title`: truncate at the first
LF when it occurs at a positive index. -/
def titleCut (t1 : List Char) : List Char :=
  match indexLF t1 with
  | some i => if 0 < i then t1.take i else t1
  | none => t1

/-- `Revision.Title` on the comment text (bytes identified with
characters): truncate to 72 when the comment has at least 72, append
"..." when strictly longer, then cut at the first LF if it occurs at a
positive index — all of this only in the `≥ 72` branch. -/
def titleOf (comment : List Char) : List Char :=
  if 72 ≤ comment.length then
    titleCut (if 72 < comment.length then comment.take 72 ++ ['.', '.', '.']
              else comment.take 72)
  else comment

def Revision.title (r : Revision) : String :=
  String.mk (titleOf r.Comment.data)

/-! ## The codec: `Revision.String` and `UnmarshalRevision` -/

/-- `Revision.String`: the metadata block followed by the SQL body; the
blank line and comment are omitted when the comment is empty. -/
def revString (r : Revision) : String :=
  "/*\n" ++ "Revision: " ++ r.ID ++ "\n" ++ "Author:   " ++ r.Author ++ "\n" ++
  (if r.Comment ≠ "" then "\n" ++ r.Comment ++ "\n" else "") ++
  "*/\n\n" ++ r.SQL

/-- Decoder state: the accumulated rune buffer, the previously
processed rune `r0` (zero value: NUL), the `inBlock` flag and the
fields decoded so far. -/
structure DecSt where
  buf : List Char
  r0 : Char
  inBlock : Bool
  author : List Char
  id : List Char
  comment : List Char
deriving DecidableEq, Repr

def initSt : DecSt := ⟨[], Char.ofNat 0, false, [], [], []⟩

/-- Outcome of `UnmarshalRevision`: a runtime panic (negative slice
index in the keyword look-back), `ErrInvalid`, or a revision. -/
inductive DecOut where
  | panic : DecOut
  | errInvalid : DecOut
  | ok (rev : Revision) : DecOut
deriving DecidableEq, Repr

/-- Go `for i, r := range buf { if r == ':' ... }`: index of the first
colon. -/
def firstColonIdx : List Char → Option Nat
  | [] => none
  | c :: cs => if c = ':' then some 0 else (firstColonIdx cs).map (· + 1)

/-- `buf[pos-k : pos]` for `k ≤ pos` (the Go code slices without a
bound check; the `pos < k` panic is made explicit in the loop). -/
def lookback (buf : List Char) (pos k : Nat) : List Char :=
  (buf.take pos).drop (pos - k)

/-- EOF: `rev.SQL = TrimSpace(buf)`, then validate the ID. -/
def finishDec (st : DecSt) : DecOut :=
  if (parseRevisionId st.id).isSome then
    .ok ⟨String.mk st.id, String.mk st.author, String.mk st.comment,
         String.mk (trimL st.buf)⟩
  else .errInvalid

/-- The in-block newline handling of the rune loop (the processed rune
is `'\n'`): blank-line reset, then the colon look-back for the
`Author` / `Revision` keywords.  `none` is the out-of-range look-back —
a runtime panic in Go (`buf[pos-6:pos]` or `buf[pos-8:pos]` with a
negative start). -/
def nlUpdate (st : DecSt) : Option DecSt :=
  if st.r0 = '\n' then some { st with buf := [] }
  else
    match firstColonIdx st.buf with
    | none => some { st with buf := st.buf ++ ['\n'], r0 := '\n' }
    | some pos =>
      if pos < 6 then none
      else if lookback st.buf pos 6 = "Author".data then
        some { st with author := trimL (st.buf.drop (pos + 1)), buf := [] }
      else if pos < 8 then none
      else if lookback st.buf pos 8 = "Revision".data then
        some { st with id := trimL (st.buf.drop (pos + 1)), buf := [] }
      else some { st with buf := st.buf ++ ['\n'], r0 := '\n' }

/-- The rune loop of `UnmarshalRevision`, one case per branch of the Go
code, in source order: open `/*`, close `*/`, in-block newline handling
(`nlUpdate` above), the `*` peek, and plain accumulation.  The one-rune
lookahead of the peek is made explicit in the list patterns: on `[c]`
the peek hits EOF and the loop continues straight into the EOF case; on
`c :: p :: cs'` the peeked rune `p` is unread when it is `'/'` and is
consumed and LOST otherwise (the Go code only calls `UnreadRune` in the
`peek == '/'` branch). -/
def decLoop (st : DecSt) : List Char → DecOut
  | [] => finishDec st
  | [c] =>
    if c = '*' ∧ st.r0 = '/' then
      decLoop { st with inBlock := true } []
    else if c = '/' ∧ st.r0 = '*' then
      decLoop { st with comment := trimL st.buf, buf := [], inBlock := false } []
    else if st.inBlock ∧ c = '\n' then
      match nlUpdate st with
      | none => .panic
      | some st2 => decLoop st2 []
    else if c = '*' then
      finishDec st
    else decLoop { st with buf := st.buf ++ [c], r0 := c } []
  | c :: p :: cs' =>
    if c = '*' ∧ st.r0 = '/' then
      decLoop { st with inBlock := true } (p :: cs')
    else if c = '/' ∧ st.r0 = '*' then
      decLoop { st with comment := trimL st.buf, buf := [], inBlock := false } (p :: cs')
    else if st.inBlock ∧ c = '\n' then
      match nlUpdate st with
      | none => .panic
      | some st2 => decLoop st2 (p :: cs')
    else if c = '*' then
      if p = '/' then decLoop { st with r0 := '*' } (p :: cs')
      else decLoop { st with buf := st.buf ++ [c], r0 := c } cs'
    else decLoop { st with buf := st.buf ++ [c], r0 := c } (p :: cs')

/-- `UnmarshalRevision` on the full input. -/
def unmarshalRevision (s : String) : DecOut :=
  decLoop initSt s.data

/-! ## Helper lemmas: `indexLF` -/

theorem indexLF_take {c : List Char} {i n : Nat} (h : indexLF c = some i)
    (hn : i < n) : indexLF (c.take n) = some i := by
  induction c generalizing i n with
  | nil => simp [indexLF] at h
  | cons a l ih =>
    cases n with
    | zero => exact absurd hn (by omega)
    | succ m =>
      rw [List.take_succ_cons]
      by_cases ha : a = '\n'
      · simp only [indexLF, if_pos ha] at h ⊢; exact h
      · simp only [indexLF, if_neg ha, Option.map_eq_some'] at h ⊢
        obtain ⟨j, hj, rfl⟩ := h
        exact ⟨j, ih hj (by omega), rfl⟩

theorem indexLF_append_left {l₁ : List Char} {i : Nat} (l₂ : List Char)
    (h : indexLF l₁ = some i) : indexLF (l₁ ++ l₂) = some i := by
  induction l₁ generalizing i with
  | nil => simp [indexLF] at h
  | cons a l ih =>
    rw [List.cons_append]
    by_cases ha : a = '\n'
    · simp only [indexLF, if_pos ha] at h ⊢; exact h
    · simp only [indexLF, if_neg ha, Option.map_eq_some'] at h ⊢
      obtain ⟨j, hj, rfl⟩ := h
      exact ⟨j, ih hj, rfl⟩

/-! ## Helper lemmas: the Collection -/

/-- `insertNode` inserts exactly one keyed pair (in-order traversal is
a permutation of the old one plus the new pair). -/
theorem walkT_insertNode_perm (t : Tree) (v : Int) (r : Revision) :
    (walkT (insertNode t v r)).Perm ((v, r) :: walkT t) := by
  induction t with
  | leaf => simp [insertNode, walkT]
  | node l nv nr rt ihl ihr =>
    rw [insertNode]
    by_cases hv : v < nv
    · rw [if_pos hv, walkT, walkT]
      exact ihl.append_right _
    · rw [if_neg hv, walkT, walkT]
      refine ((ihr.cons (nv, nr)).append_left (walkT l)).trans ?_
      have h1 : walkT l ++ (nv, nr) :: (v, r) :: walkT rt
          = (walkT l ++ [(nv, nr)]) ++ (v, r) :: walkT rt := by simp
      have h2 : (v, r) :: (walkT l ++ (nv, nr) :: walkT rt)
          = (v, r) :: ((walkT l ++ [(nv, nr)]) ++ walkT rt) := by simp
      rw [h1, h2]
      exact List.perm_middle

theorem mem_walkT_insertNode {t : Tree} {v : Int} {r : Revision}
    {p : Int × Revision} (h : p ∈ walkT (insertNode t v r)) :
    p = (v, r) ∨ p ∈ walkT t := by
  have := (walkT_insertNode_perm t v r).mem_iff.mp h
  simpa using this

/-- The BST invariant maintained by `insertNode`. -/
inductive OrderedT : Tree → Prop where
  | leaf : OrderedT .leaf
  | node {l rt : Tree} {v : Int} {r : Revision} :
      OrderedT l → OrderedT rt →
      (∀ p ∈ walkT l, p.1 < v) → (∀ p ∈ walkT rt, v ≤ p.1) →
      OrderedT (.node l v r rt)

theorem orderedT_insertNode {t : Tree} (h : OrderedT t) (v : Int) (r : Revision) :
    OrderedT (insertNode t v r) := by
  induction h with
  | leaf => exact .node .leaf .leaf (by simp [walkT]) (by simp [walkT])
  | @node l rt nv nr hl hr hal har ihl ihr =>
    rw [insertNode]
    by_cases hv : v < nv
    · rw [if_pos hv]
      refine .node ihl hr ?_ har
      intro p hp
      rcases mem_walkT_insertNode hp with rfl | hp2
      · exact hv
      · exact hal p hp2
    · rw [if_neg hv]
      refine .node hl ihr hal ?_
      intro p hp
      rcases mem_walkT_insertNode hp with rfl | hp2
      · omega
      · exact har p hp2

/-- In-order traversal of a BST is sorted by key. -/
theorem pairwise_walkT {t : Tree} (h : OrderedT t) :
    (walkT t).Pairwise (fun p q => p.1 ≤ q.1) := by
  induction h with
  | leaf => simp [walkT]
  | @node l rt nv nr hl hr hal har ihl ihr =>
    rw [walkT, List.pairwise_append]
    refine ⟨ihl, ?_, ?_⟩
    · rw [List.pairwise_cons]
      exact ⟨fun q hq => har q hq, ihr⟩
    · intro a ha b hb
      rcases List.mem_cons.mp hb with rfl | hb2
      · exact le_of_lt (hal a ha)
      · exact le_trans (le_of_lt (hal a ha)) (har b hb2)

/-- Every pair in the tree carries the Unix key of its revision's ID. -/
def KeysGood (t : Tree) : Prop :=
  ∀ p ∈ walkT t, parseRevisionId p.2.ID.data = some p.1

theorem put_of_valid {c : Collection} {r : Revision} (h : validB r = true) :
    c.put r = (⟨c.len + 1, insertNode c.root (keyOf r) r⟩, none) := by
  rw [validB, Bool.and_eq_true, bne_iff_ne, Option.isSome_iff_exists] at h
  obtain ⟨hne, k, hk⟩ := h
  rw [Collection.put, if_neg hne, hk, keyOf, hk]
  rfl

theorem put_of_invalid {c : Collection} {r : Revision} (h : validB r = false) :
    c.put r = (c, some .errInvalid) := by
  by_cases hid : r.ID = ""
  · rw [Collection.put, if_pos hid]
  · cases hp : parseRevisionId r.ID.data with
    | none => rw [Collection.put, if_neg hid, hp]
    | some k =>
      exfalso
      rw [validB, hp] at h
      simp [hid] at h

theorem parse_of_valid {r : Revision} (h : validB r = true) :
    parseRevisionId r.ID.data = some (keyOf r) := by
  rw [validB, Bool.and_eq_true, Option.isSome_iff_exists] at h
  obtain ⟨-, k, hk⟩ := h
  rw [hk, keyOf, hk]
  rfl

/-- `PerformRevisions` puts revisions one by one starting from the zero
collection; this is the general fold. -/
def foldPut (c : Collection) (revs : List Revision) : Collection :=
  revs.foldl (fun c r => (c.put r).1) c

theorem putAll_eq_foldPut (revs : List Revision) :
    putAll revs = foldPut emptyCollection revs := rfl

/-- The keyed pairs `Put` actually inserts, in arrival order. -/
def keyed : List Revision → List (Int × Revision)
  | [] => []
  | r :: rest => if validB r then (keyOf r, r) :: keyed rest else keyed rest

theorem keyed_map_snd (revs : List Revision) :
    (keyed revs).map Prod.snd = revs.filter validB := by
  induction revs with
  | nil => rfl
  | cons r rest ih =>
    rw [keyed]
    by_cases h : validB r
    · rw [if_pos h, List.map_cons, ih, List.filter_cons, if_pos h]
    · rw [if_neg h, ih, List.filter_cons, if_neg h]

theorem foldPut_perm (revs : List Revision) :
    ∀ c : Collection, (walkT (foldPut c revs).root).Perm
      (walkT c.root ++ keyed revs) := by
  induction revs with
  | nil => intro c; simp [foldPut, keyed]
  | cons r rest ih =>
    intro c
    have hstep : foldPut c (r :: rest) = foldPut ((c.put r).1) rest := rfl
    by_cases h : validB r
    · rw [hstep, put_of_valid h, keyed, if_pos h]
      refine (ih _).trans ?_
      refine (((walkT_insertNode_perm c.root (keyOf r) r).append_right
        (keyed rest)).trans ?_)
      exact List.perm_middle.symm
    · have h2 : validB r = false := by simpa using h
      rw [hstep, put_of_invalid h2, keyed, if_neg h]
      exact ih c

theorem foldPut_invar (revs : List Revision) :
    ∀ c : Collection, OrderedT c.root → KeysGood c.root →
      OrderedT (foldPut c revs).root ∧ KeysGood (foldPut c revs).root := by
  induction revs with
  | nil => intro c h1 h2; exact ⟨h1, h2⟩
  | cons r rest ih =>
    intro c h1 h2
    have hstep : foldPut c (r :: rest) = foldPut ((c.put r).1) rest := rfl
    by_cases h : validB r
    · rw [hstep, put_of_valid h]
      refine ih _ (orderedT_insertNode h1 _ _) ?_
      intro p hp
      rcases mem_walkT_insertNode hp with rfl | hp2
      · exact parse_of_valid h
      · exact h2 p hp2
    · have h3 : validB r = false := by simpa using h
      rw [hstep, put_of_invalid h3]
      exact ih c h1 h2

theorem foldPut_len (revs : List Revision) :
    ∀ c : Collection, (foldPut c revs).len = c.len + revs.countP validB := by
  induction revs with
  | nil => intro c; simp [foldPut]
  | cons r rest ih =>
    intro c
    have hstep : foldPut c (r :: rest) = foldPut ((c.put r).1) rest := rfl
    rw [hstep, List.countP_cons]
    by_cases h : validB r
    · rw [put_of_valid h, ih, h]
      simp
      omega
    · have h2 : validB r = false := by simpa using h
      rw [put_of_invalid h2, ih, h2]
      simp

theorem foldPut_invalid {revs : List Revision}
    (h : ∀ r ∈ revs, validB r = false) :
    ∀ c : Collection, foldPut c revs = c := by
  induction revs with
  | nil => intro c; rfl
  | cons r rest ih =>
    intro c
    have hstep : foldPut c (r :: rest) = foldPut ((c.put r).1) rest := rfl
    rw [hstep, put_of_invalid (h r (by simp))]
    exact ih (fun r2 hr2 => h r2 (by simp [hr2])) c

theorem foldPut_filter (revs : List Revision) :
    ∀ c : Collection, foldPut c (revs.filter validB) = foldPut c revs := by
  induction revs with
  | nil => intro c; rfl
  | cons r rest ih =>
    intro c
    rw [List.filter_cons]
    by_cases h : validB r
    · rw [if_pos h]
      exact ih ((c.put r).1)
    · have h2 : validB r = false := by simpa using h
      rw [if_neg h]
      have hstep : foldPut c (r :: rest) = foldPut ((c.put r).1) rest := rfl
      rw [hstep, put_of_invalid h2]
      exact ih c

theorem walkT_eq_nil_iff {t : Tree} : walkT t = [] ↔ t = .leaf := by
  cases t <;> simp [walkT]

theorem slice_of_ne_leaf {c : Collection} (h : c.root ≠ .leaf) :
    c.slice = some ((walkT c.root).map Prod.snd) := by
  rcases hr : c.root with - | ⟨l, v, r, rt⟩
  · exact absurd hr h
  · rw [Collection.slice, hr]

/-- The slice with the panic defaulted away (used to state sortedness
without an existential). -/
def sliceD (c : Collection) : List Revision := c.slice.getD []

theorem mem_keyed_of_valid {r : Revision} {revs : List Revision}
    (hr : r ∈ revs) (hv : validB r = true) : (keyOf r, r) ∈ keyed revs := by
  induction revs with
  | nil => simp at hr
  | cons a rest ih =>
    rcases List.mem_cons.mp hr with rfl | hmem
    · rw [keyed, if_pos hv]; exact List.mem_cons_self _ _
    · rw [keyed]
      by_cases ha : validB a
      · rw [if_pos ha]; exact List.mem_cons_of_mem _ (ih hmem)
      · rw [if_neg ha]; exact ih hmem

/-- Core fact shared by the ordering claims: whenever at least one
revision is valid, `Slice` succeeds, returns a permutation of the valid
revisions, and that list is sorted by ascending Unix key. -/
theorem sliceD_spec (revs : List Revision)
    (hne : keyed revs ≠ []) :
    (putAll revs).slice = some (sliceD (putAll revs)) ∧
    (sliceD (putAll revs)).Perm (revs.filter validB) ∧
    (sliceD (putAll revs)).Pairwise (fun a b => keyOf a ≤ keyOf b) := by
  have hperm : (walkT (putAll revs).root).Perm (keyed revs) := by
    have := foldPut_perm revs emptyCollection
    rw [← putAll_eq_foldPut] at this
    simpa [emptyCollection, walkT] using this
  have hroot : (putAll revs).root ≠ .leaf := by
    intro hleaf
    have : walkT (putAll revs).root = [] := by rw [hleaf, walkT]
    rw [this] at hperm
    exact hne (hperm.nil_eq.symm ▸ rfl)
  have hinv := foldPut_invar revs emptyCollection (by exact .leaf)
    (by intro p hp; simp [emptyCollection, walkT] at hp)
  rw [← putAll_eq_foldPut] at hinv
  have hslice := slice_of_ne_leaf hroot
  have hD : sliceD (putAll revs) = (walkT (putAll revs).root).map Prod.snd := by
    rw [sliceD, hslice]; rfl
  refine ⟨by rw [hslice, hD], ?_, ?_⟩
  · rw [hD, ← keyed_map_snd]
    exact hperm.map Prod.snd
  · rw [hD, List.pairwise_map]
    have hpw := pairwise_walkT hinv.1
    refine hpw.imp_of_mem ?_
    intro p q hp hq hle
    have hkp : keyOf p.2 = p.1 := by rw [keyOf, hinv.2 p hp]; rfl
    have hkq : keyOf q.2 = q.1 := by rw [keyOf, hinv.2 q hq]; rfl
    rw [hkp, hkq]
    exact hle

/-! ## Helper lemmas: trimming -/

theorem trimL_cons_space {c : Char} (h : goSpace c = true) (l : List Char) :
    trimL (c :: l) = trimL l := by
  rw [trimL, trimL, List.dropWhile_cons_of_pos h]

theorem trimL_append_space {c : Char} (h : goSpace c = true) (l : List Char) :
    trimL (l ++ [c]) = trimL l := by
  rw [trimL, trimL, List.dropWhile_append]
  by_cases he : (l.dropWhile goSpace).isEmpty
  · rw [if_pos he]
    have h0 : l.dropWhile goSpace = [] := List.isEmpty_iff.mp he
    rw [h0, List.dropWhile_cons_of_pos h]
    rfl
  · rw [if_neg he, List.reverse_append]
    show ((c :: (l.dropWhile goSpace).reverse).dropWhile goSpace).reverse = _
    rw [List.dropWhile_cons_of_pos h]

theorem trimL_no_space {l : List Char} (h : ∀ c ∈ l, goSpace c = false) :
    trimL l = l := by
  have h1 : l.dropWhile goSpace = l := by
    cases l with
    | nil => rfl
    | cons a t => exact List.dropWhile_cons_of_neg (by simp [h a (by simp)])
  rw [trimL, h1]
  have h2 : l.reverse.dropWhile goSpace = l.reverse := by
    cases hr : l.reverse with
    | nil => rfl
    | cons a t =>
      have ha : a ∈ l := by
        rw [← List.mem_reverse, hr]
        simp
      exact List.dropWhile_cons_of_neg (by simp [h a ha])
  rw [h2, List.reverse_reverse]

theorem digit_facts {c : Char} (h : c.isDigit = true) :
    c ≠ '*' ∧ c ≠ ':' ∧ c ≠ '\n' ∧ c ≠ '/' ∧ goSpace c = false := by
  have hne : ∀ d : Char, d.isDigit = false → c ≠ d := by
    intro d hd he
    rw [he, hd] at h
    exact Bool.false_ne_true h
  refine ⟨hne '*' (by decide), hne ':' (by decide), hne '\n' (by decide),
    hne '/' (by decide), ?_⟩
  cases hgs : goSpace c
  · rfl
  · exfalso
    rw [goSpace] at hgs
    simp only [Bool.or_eq_true, decide_eq_true_iff] at hgs
    rcases hgs with ((((((h3 | h3) | h3) | h3) | h3) | h3) | h3) | h3 <;>
      exact hne _ (by decide) h3

/-! ## Helper lemmas: the decoder -/

theorem firstColonIdx_none {l : List Char} (h : ∀ c ∈ l, c ≠ ':') :
    firstColonIdx l = none := by
  induction l with
  | nil => rfl
  | cons a t ih =>
    rw [firstColonIdx, if_neg (h a (by simp)),
        ih (fun c hc => h c (by simp [hc]))]
    rfl

theorem firstColonIdx_append {q t : List Char} (h : ∀ c ∈ q, c ≠ ':') :
    firstColonIdx (q ++ ':' :: t) = some q.length := by
  induction q with
  | nil => rw [List.nil_append, firstColonIdx, if_pos rfl]; rfl
  | cons a t ih =>
    rw [List.cons_append, firstColonIdx, if_neg (h a (by simp)),
        ih (fun c hc => h c (by simp [hc]))]
    rfl

theorem drop_length_add {α : Type} (q : List α) (X : List α) (n : Nat) :
    (q ++ X).drop (q.length + n) = X.drop n := by
  induction q with
  | nil => simp
  | cons a t ih =>
    rw [List.cons_append, List.length_cons]
    have h : t.length + 1 + n = (t.length + n) + 1 := by omega
    rw [h, List.drop_succ_cons, ih]

theorem take_length_add {α : Type} (q : List α) (X : List α) (n : Nat) :
    (q ++ X).take (q.length + n) = q ++ X.take n := by
  induction q with
  | nil => simp
  | cons a t ih =>
    rw [List.cons_append, List.length_cons]
    have h : t.length + 1 + n = (t.length + n) + 1 := by omega
    rw [h, List.take_succ_cons, ih, List.cons_append]

theorem lookback_at {q w t : List Char} {k : Nat} (hk : w.length = k) :
    lookback (q ++ (w ++ ':' :: t)) (q.length + k) k = w := by
  rw [lookback]
  have h1 : (q ++ (w ++ ':' :: t)).take (q.length + k) = q ++ w := by
    rw [take_length_add, ← hk, List.take_left]
  have h2 : q.length + k - k = q.length := by omega
  rw [h1, h2, List.drop_left]

theorem lookback_short {q w t : List Char} {k j : Nat} (hk : w.length = k)
    (hj : j ≤ k) :
    lookback (q ++ (w ++ ':' :: t)) (q.length + k) j = w.drop (k - j) := by
  rw [lookback]
  have h1 : (q ++ (w ++ ':' :: t)).take (q.length + k) = q ++ w := by
    rw [take_length_add, ← hk, List.take_left]
  have h2 : q.length + k - j = q.length + (k - j) := by omega
  rw [h1, h2, drop_length_add]

/-! ### Single-step lemmas for the decoder loop -/

theorem nlUpdate_nocolon {st : DecSt} (hr0 : st.r0 ≠ '\n')
    (hb : firstColonIdx st.buf = none) :
    nlUpdate st = some { st with buf := st.buf ++ ['\n'], r0 := '\n' } := by
  rw [nlUpdate, if_neg hr0, hb]

theorem nlUpdate_author {st : DecSt} (rest : List Char) (hr0 : st.r0 ≠ '\n')
    (hbuf : st.buf = "Author".data ++ ':' :: rest) :
    nlUpdate st = some { st with author := trimL rest, buf := [] } := by
  have hcol : firstColonIdx st.buf = some 6 := by
    rw [hbuf]
    have hA : ∀ x ∈ "Author".data, x ≠ ':' := by decide
    have h0 := firstColonIdx_append (q := "Author".data) (t := rest) hA
    rw [h0]
    decide
  have hlb : lookback st.buf 6 6 = "Author".data := by
    have h0 := lookback_at (q := ([] : List Char)) (w := "Author".data)
      (t := rest) (k := 6) (by decide)
    simp only [List.nil_append, List.length_nil, Nat.zero_add] at h0
    rw [hbuf]
    exact h0
  have hdrop : st.buf.drop 7 = rest := by
    rw [hbuf]
    have hlen : ("Author".data).length + 1 = 7 := by decide
    rw [← hlen, drop_length_add]
    simp
  rw [nlUpdate, if_neg hr0, hcol]
  dsimp only
  rw [if_neg (by omega), if_pos hlb, hdrop]

theorem nlUpdate_revision {st : DecSt} (q rest : List Char) (hr0 : st.r0 ≠ '\n')
    (hq : ∀ c ∈ q, c ≠ ':')
    (hbuf : st.buf = q ++ ("Revision".data ++ ':' :: rest)) :
    nlUpdate st = some { st with id := trimL rest, buf := [] } := by
  have hq2 : ∀ c ∈ q ++ "Revision".data, c ≠ ':' := by
    intro c hc
    rcases List.mem_append.mp hc with hc1 | hc2
    · exact hq c hc1
    · have hrv : ∀ x ∈ "Revision".data, x ≠ ':' := by decide
      exact hrv c hc2
  have hcol : firstColonIdx st.buf = some (q.length + 8) := by
    rw [hbuf, ← List.append_assoc]
    have h0 := firstColonIdx_append (q := q ++ "Revision".data) (t := rest) hq2
    rw [h0, List.length_append]
    have hl : ("Revision".data).length = 8 := by decide
    rw [hl]
  have hlb6 : lookback st.buf (q.length + 8) 6 = "vision".data := by
    rw [hbuf, lookback_short (w := "Revision".data) (k := 8) (j := 6)
      (by decide) (by omega)]
    decide
  have hlb8 : lookback st.buf (q.length + 8) 8 = "Revision".data := by
    rw [hbuf]
    exact lookback_at (k := 8) (by decide)
  have hdrop : st.buf.drop (q.length + 8 + 1) = rest := by
    rw [hbuf]
    have h9 : q.length + 8 + 1 = q.length + (("Revision".data).length + 1) := by
      have hl : ("Revision".data).length = 8 := by decide
      omega
    rw [h9, drop_length_add, drop_length_add]
    simp
  rw [nlUpdate, if_neg hr0, hcol]
  dsimp only
  rw [if_neg (by omega), hlb6, if_neg (by decide), if_neg (by omega),
      if_pos hlb8, hdrop]

theorem step_cont {st : DecSt} {c : Char} (cs : List Char)
    (h4 : c ≠ '*') (h2 : ¬(c = '/' ∧ st.r0 = '*'))
    (h3 : ¬(st.inBlock = true ∧ c = '\n')) :
    decLoop st (c :: cs) =
      decLoop { st with buf := st.buf ++ [c], r0 := c } cs := by
  cases cs with
  | nil =>
    conv_lhs => rw [decLoop]
    rw [if_neg (fun h => h4 h.1), if_neg h2, if_neg h3, if_neg h4]
  | cons p cs' =>
    conv_lhs => rw [decLoop]
    rw [if_neg (fun h => h4 h.1), if_neg h2, if_neg h3, if_neg h4]

theorem step_open {st : DecSt} (cs : List Char) (h : st.r0 = '/') :
    decLoop st ('*' :: cs) = decLoop { st with inBlock := true } cs := by
  cases cs with
  | nil =>
    conv_lhs => rw [decLoop]
    rw [if_pos ⟨rfl, h⟩]
  | cons p cs' =>
    conv_lhs => rw [decLoop]
    rw [if_pos ⟨rfl, h⟩]

theorem step_close {st : DecSt} (cs : List Char) (h : st.r0 = '*') :
    decLoop st ('/' :: cs) =
      decLoop { st with comment := trimL st.buf, buf := [], inBlock := false } cs := by
  cases cs with
  | nil =>
    conv_lhs => rw [decLoop]
    rw [if_neg (fun hh => absurd hh.1 (by decide)), if_pos ⟨rfl, h⟩]
  | cons p cs' =>
    conv_lhs => rw [decLoop]
    rw [if_neg (fun hh => absurd hh.1 (by decide)), if_pos ⟨rfl, h⟩]

theorem step_star_slash {st : DecSt} (cs : List Char) (h : st.r0 ≠ '/') :
    decLoop st ('*' :: '/' :: cs) = decLoop { st with r0 := '*' } ('/' :: cs) := by
  conv_lhs => rw [decLoop]
  rw [if_neg (fun hh => h hh.2),
      if_neg (fun hh => absurd hh.1 (by decide)),
      if_neg (fun hh => absurd hh.2 (by decide)), if_pos rfl, if_pos rfl]

theorem step_nl {st : DecSt} (cs : List Char) (st2 : DecSt)
    (hin : st.inBlock = true) (hup : nlUpdate st = some st2) :
    decLoop st ('\n' :: cs) = decLoop st2 cs := by
  cases cs with
  | nil =>
    conv_lhs => rw [decLoop]
    rw [if_neg (fun hh => absurd hh.1 (by decide)),
        if_neg (fun hh => absurd hh.1 (by decide)), if_pos ⟨hin, rfl⟩, hup]
  | cons p cs' =>
    conv_lhs => rw [decLoop]
    rw [if_neg (fun hh => absurd hh.1 (by decide)),
        if_neg (fun hh => absurd hh.1 (by decide)), if_pos ⟨hin, rfl⟩, hup]

theorem step_nl_nocolon {st : DecSt} (cs : List Char) (hin : st.inBlock = true)
    (hr0 : st.r0 ≠ '\n') (hb : firstColonIdx st.buf = none) :
    decLoop st ('\n' :: cs) =
      decLoop { st with buf := st.buf ++ ['\n'], r0 := '\n' } cs :=
  step_nl cs _ hin (nlUpdate_nocolon hr0 hb)

theorem step_nl_author {st : DecSt} (cs rest : List Char)
    (hin : st.inBlock = true) (hr0 : st.r0 ≠ '\n')
    (hbuf : st.buf = "Author".data ++ ':' :: rest) :
    decLoop st ('\n' :: cs) =
      decLoop { st with author := trimL rest, buf := [] } cs :=
  step_nl cs _ hin (nlUpdate_author rest hr0 hbuf)

theorem step_nl_revision {st : DecSt} (cs q rest : List Char)
    (hin : st.inBlock = true) (hr0 : st.r0 ≠ '\n')
    (hq : ∀ c ∈ q, c ≠ ':')
    (hbuf : st.buf = q ++ ("Revision".data ++ ':' :: rest)) :
    decLoop st ('\n' :: cs) =
      decLoop { st with id := trimL rest, buf := [] } cs :=
  step_nl cs _ hin (nlUpdate_revision q rest hr0 hq hbuf)

/-! ### Chunk-consumption lemmas for the decoder loop -/

theorem consume_chunk (cs : List Char) :
    ∀ (st : DecSt) (rest : List Char),
    (∀ c ∈ cs, c ≠ '*') →
    (st.inBlock = true → ∀ c ∈ cs, c ≠ '\n') →
    (st.r0 = '*' → cs.head? ≠ some '/') →
    decLoop st (cs ++ rest) =
      decLoop { st with buf := st.buf ++ cs, r0 := cs.getLastD st.r0 } rest := by
  induction cs with
  | nil => intro st rest _ _ _; simp [List.getLastD]
  | cons c t ih =>
    intro st rest h1 h2 h3
    have hc1 : c ≠ '*' := h1 c (by simp)
    have hc2 : ¬(c = '/' ∧ st.r0 = '*') := by
      rintro ⟨rfl, hr⟩
      exact h3 hr rfl
    have hc3 : ¬(st.inBlock = true ∧ c = '\n') := by
      rintro ⟨hb, rfl⟩
      exact h2 hb '\n' (by simp) rfl
    rw [List.cons_append, step_cont (t ++ rest) hc1 hc2 hc3, List.getLastD_cons,
        show st.buf ++ c :: t = (st.buf ++ [c]) ++ t by simp]
    exact ih _ rest (fun x hx => h1 x (by simp [hx]))
      (fun hb x hx => h2 hb x (by simp [hx]))
      (fun hr => absurd hr hc1)

theorem consume_block (cs : List Char) :
    ∀ (st : DecSt) (rest : List Char),
    st.inBlock = true →
    (∀ c ∈ cs, c ≠ '*' ∧ c ≠ ':') →
    (∀ c ∈ st.buf, c ≠ ':') →
    List.Chain' (fun a b => a = '\n' → b ≠ '\n') (st.r0 :: cs) →
    st.r0 ≠ '*' →
    decLoop st (cs ++ rest) =
      decLoop { st with buf := st.buf ++ cs, r0 := cs.getLastD st.r0 } rest := by
  induction cs with
  | nil => intro st rest _ _ _ _ _; simp [List.getLastD]
  | cons c t ih =>
    intro st rest hin h1 hbuf hch hr0
    have hchr : (st.r0 = '\n' → c ≠ '\n') ∧
        List.Chain' (fun a b => a = '\n' → b ≠ '\n') (c :: t) := by
      exact List.chain'_cons.mp hch
    have hbuf2 : ∀ x ∈ st.buf ++ [c], x ≠ ':' := by
      intro x hx
      rcases List.mem_append.mp hx with hx1 | hx2
      · exact hbuf x hx1
      · have hxc : x = c := by simpa using hx2
        rw [hxc]
        exact (h1 c (by simp)).2
    by_cases hc : c = '\n'
    · subst hc
      have hr0n : st.r0 ≠ '\n' := fun h => hchr.1 h rfl
      rw [List.cons_append,
          step_nl_nocolon (t ++ rest) hin hr0n (firstColonIdx_none hbuf),
          List.getLastD_cons,
          show st.buf ++ '\n' :: t = (st.buf ++ ['\n']) ++ t by simp]
      exact ih _ rest hin (fun x hx => h1 x (by simp [hx])) hbuf2 hchr.2
        (by show ('\n' : Char) ≠ '*'; decide)
    · have hcs : c ≠ '*' := (h1 c (by simp)).1
      have hc2 : ¬(c = '/' ∧ st.r0 = '*') := fun hh => hr0 hh.2
      have hc3 : ¬(st.inBlock = true ∧ c = '\n') := fun hh => hc hh.2
      rw [List.cons_append, step_cont (t ++ rest) hcs hc2 hc3, List.getLastD_cons,
          show st.buf ++ c :: t = (st.buf ++ [c]) ++ t by simp]
      exact ih _ rest hin (fun x hx => h1 x (by simp [hx])) hbuf2 hchr.2 hcs

/-! ### List last-element helpers -/

theorem getLastD_append {α : Type} (l1 l2 : List α) (d : α) :
    (l1 ++ l2).getLastD d = l2.getLastD (l1.getLastD d) := by
  induction l1 generalizing d with
  | nil => rfl
  | cons x t ih =>
    rw [List.cons_append, List.getLastD_cons, List.getLastD_cons, ih]

theorem getLastD_mem {α : Type} {l : List α} (d : α) (h : l ≠ []) :
    l.getLastD d ∈ l := by
  induction l generalizing d with
  | nil => exact absurd rfl h
  | cons x t ih =>
    rw [List.getLastD_cons]
    by_cases ht : t = []
    · subst ht
      simp [List.getLastD]
    · exact List.mem_cons_of_mem _ (ih x ht)

theorem getLastD_ne {α : Type} {l : List α} {d x : α}
    (h : ∀ c ∈ l, c ≠ x) (hd : d ≠ x) : l.getLastD d ≠ x := by
  by_cases hl : l = []
  · subst hl
    exact hd
  · exact h _ (getLastD_mem d hl)

theorem getLastD_irrel {α : Type} {l : List α} (d d' : α) (h : l ≠ []) :
    l.getLastD d = l.getLastD d' := by
  cases l with
  | nil => exact absurd rfl h
  | cons x t => rw [List.getLastD_cons, List.getLastD_cons]

/-! ### Facts from a successful ID parse -/

theorem parse_digits {l : List Char} {k : Int} (h : parseRevisionId l = some k) :
    l ≠ [] ∧ ∀ c ∈ l, c.isDigit = true := by
  rw [parseRevisionId] at h
  split at h
  · rename_i hcond
    refine ⟨?_, fun c hc => hcond.2 c hc⟩
    intro hnil
    rw [hnil] at hcond
    simp at hcond
  · exact absurd h (by simp)

theorem id_char_facts {l : List Char} {k : Int} (h : parseRevisionId l = some k) :
    ∀ c ∈ l, c ≠ '*' ∧ c ≠ ':' ∧ c ≠ '\n' ∧ c ≠ '/' ∧ goSpace c = false :=
  fun c hc => digit_facts ((parse_digits h).2 c hc)

theorem string_data_ne_nil {s : String} (h : s ≠ "") : s.data ≠ [] := by
  intro hd
  apply h
  have : s = String.mk s.data := rfl
  rw [this, hd]

/-! ### Decoding the metadata header

Running the loop over `/*\nRevision: <id>\nAuthor:   <author>\n`
from the initial state: the block opens, the `Revision` line sets the
ID, the `Author` line sets the author, and the buffer is left empty
with `r0` the last rune of the author line. -/

theorem decode_header (idc a tail : List Char) (k : Int)
    (hidp : parseRevisionId idc = some k)
    (ha1 : ∀ c ∈ a, c ≠ '*' ∧ c ≠ '\n') :
    decLoop initSt (['/', '*', '\n'] ++
        (['R', 'e', 'v', 'i', 's', 'i', 'o', 'n', ':', ' '] ++ (idc ++ (['\n'] ++
        (['A', 'u', 't', 'h', 'o', 'r', ':', ' ', ' ', ' '] ++
          (a ++ (['\n'] ++ tail))))))) =
      decLoop ⟨[], a.getLastD ' ', true, trimL a, idc, []⟩ tail := by
  obtain ⟨hne, hdig⟩ := parse_digits hidp
  have hidf := id_char_facts hidp
  have hrdv : ((['R', 'e', 'v', 'i', 's', 'i', 'o', 'n', ':', ' '] : List Char)
      ++ idc).getLastD '\n' = idc.getLastD ' ' := by
    rw [getLastD_append, getLastD_irrel _ ' ' hne]
  have hrd_mem : idc.getLastD ' ' ∈ idc := getLastD_mem ' ' hne
  have hrd_nl : idc.getLastD ' ' ≠ '\n' := (hidf _ hrd_mem).2.2.1
  have hrd_star : idc.getLastD ' ' ≠ '*' := (hidf _ hrd_mem).1
  rw [show (['/', '*', '\n'] ++
        (['R', 'e', 'v', 'i', 's', 'i', 'o', 'n', ':', ' '] ++ (idc ++ (['\n'] ++
        (['A', 'u', 't', 'h', 'o', 'r', ':', ' ', ' ', ' '] ++
          (a ++ (['\n'] ++ tail))))))) =
      '/' :: '*' :: '\n' ::
        ((['R', 'e', 'v', 'i', 's', 'i', 'o', 'n', ':', ' '] ++ idc) ++ '\n' ::
        ((['A', 'u', 't', 'h', 'o', 'r', ':', ' ', ' ', ' '] ++ a) ++
          '\n' :: tail)) by simp]
  rw [step_cont _ (by decide) (by decide) (by decide)]
  show decLoop ⟨['/'], '/', false, [], [], []⟩ _ = _
  rw [step_open _ rfl]
  show decLoop ⟨['/'], '/', true, [], [], []⟩ _ = _
  rw [step_nl_nocolon _ rfl (by decide) (by decide)]
  show decLoop ⟨['/', '\n'], '\n', true, [], [], []⟩ _ = _
  rw [consume_chunk (['R', 'e', 'v', 'i', 's', 'i', 'o', 'n', ':', ' '] ++ idc) _ _
    (by
      intro c hc
      rcases List.mem_append.mp hc with hc1 | hc2
      · have hR : ∀ x ∈ (['R', 'e', 'v', 'i', 's', 'i', 'o', 'n', ':', ' '] :
            List Char), x ≠ '*' := by decide
        exact hR c hc1
      · exact (hidf c hc2).1)
    (by
      intro _ c hc
      rcases List.mem_append.mp hc with hc1 | hc2
      · have hR : ∀ x ∈ (['R', 'e', 'v', 'i', 's', 'i', 'o', 'n', ':', ' '] :
            List Char), x ≠ '\n' := by decide
        exact hR c hc1
      · exact (hidf c hc2).2.2.1)
    (by intro hx; exact absurd hx (show ('\n' : Char) ≠ '*' by decide))]
  show decLoop ⟨['/', '\n'] ++ (['R', 'e', 'v', 'i', 's', 'i', 'o', 'n', ':', ' ']
      ++ idc),
      ((['R', 'e', 'v', 'i', 's', 'i', 'o', 'n', ':', ' '] : List Char) ++
        idc).getLastD '\n', true, [], [], []⟩ _ = _
  rw [step_nl_revision _ (['/', '\n'] : List Char) (' ' :: idc)
    rfl
    (by
      show ((['R', 'e', 'v', 'i', 's', 'i', 'o', 'n', ':', ' '] : List Char) ++
        idc).getLastD '\n' ≠ '\n'
      rw [hrdv]
      exact hrd_nl)
    (by decide)
    (by
      show ['/', '\n'] ++ (['R', 'e', 'v', 'i', 's', 'i', 'o', 'n', ':', ' '] ++ idc)
        = ['/', '\n'] ++ ("Revision".data ++ ':' :: ' ' :: idc)
      have h0 : (['R', 'e', 'v', 'i', 's', 'i', 'o', 'n', ':', ' '] : List Char) =
          "Revision".data ++ ':' :: [' '] := by decide
      rw [h0, List.append_assoc]
      rfl)]
  show decLoop ⟨[], ((['R', 'e', 'v', 'i', 's', 'i', 'o', 'n', ':', ' '] :
      List Char) ++ idc).getLastD '\n', true, [], trimL (' ' :: idc), []⟩ _ = _
  have hid_trim : trimL (' ' :: idc) = idc := by
    rw [trimL_cons_space (by decide)]
    exact trimL_no_space (fun c hc => (hidf c hc).2.2.2.2)
  rw [hid_trim, hrdv]
  rw [consume_chunk (['A', 'u', 't', 'h', 'o', 'r', ':', ' ', ' ', ' '] ++ a) _ _
    (by
      intro c hc
      rcases List.mem_append.mp hc with hc1 | hc2
      · have hA : ∀ x ∈ (['A', 'u', 't', 'h', 'o', 'r', ':', ' ', ' ', ' '] :
            List Char), x ≠ '*' := by decide
        exact hA c hc1
      · exact (ha1 c hc2).1)
    (by
      intro _ c hc
      rcases List.mem_append.mp hc with hc1 | hc2
      · have hA : ∀ x ∈ (['A', 'u', 't', 'h', 'o', 'r', ':', ' ', ' ', ' '] :
            List Char), x ≠ '\n' := by decide
        exact hA c hc1
      · exact (ha1 c hc2).2)
    (by
      show idc.getLastD ' ' = '*' → _
      intro hx
      exact absurd hx hrd_star)]
  show decLoop ⟨[] ++ (['A', 'u', 't', 'h', 'o', 'r', ':', ' ', ' ', ' '] ++ a),
      ((['A', 'u', 't', 'h', 'o', 'r', ':', ' ', ' ', ' '] : List Char) ++
        a).getLastD (idc.getLastD ' '), true, [], idc, []⟩ _ = _
  have hrav : ((['A', 'u', 't', 'h', 'o', 'r', ':', ' ', ' ', ' '] : List Char) ++
      a).getLastD (idc.getLastD ' ') = a.getLastD ' ' := by
    rw [getLastD_append]
    have h0 : (['A', 'u', 't', 'h', 'o', 'r', ':', ' ', ' ', ' '] :
        List Char).getLastD (idc.getLastD ' ') = ' ' := by
      rw [getLastD_irrel _ ' ' (by decide)]
      decide
    rw [h0]
  have hra_nl : a.getLastD ' ' ≠ '\n' :=
    getLastD_ne (fun c hc => (ha1 c hc).2) (by decide)
  rw [step_nl_author _ (' ' :: ' ' :: ' ' :: a) rfl
    (by
      show ((['A', 'u', 't', 'h', 'o', 'r', ':', ' ', ' ', ' '] : List Char) ++
        a).getLastD (idc.getLastD ' ') ≠ '\n'
      rw [hrav]
      exact hra_nl)
    (by
      show [] ++ (['A', 'u', 't', 'h', 'o', 'r', ':', ' ', ' ', ' '] ++ a) =
        "Author".data ++ ':' :: (' ' :: ' ' :: ' ' :: a)
      have h0 : (['A', 'u', 't', 'h', 'o', 'r', ':', ' ', ' ', ' '] : List Char) =
          "Author".data ++ ':' :: [' ', ' ', ' '] := by decide
      rw [List.nil_append, h0, List.append_assoc]
      rfl)]
  show decLoop ⟨[], ((['A', 'u', 't', 'h', 'o', 'r', ':', ' ', ' ', ' '] :
      List Char) ++ a).getLastD (idc.getLastD ' '), true,
      trimL (' ' :: ' ' :: ' ' :: a), idc, []⟩ _ = _
  have ha_trim : trimL (' ' :: ' ' :: ' ' :: a) = trimL a := by
    rw [trimL_cons_space (by decide), trimL_cons_space (by decide),
        trimL_cons_space (by decide)]
  rw [ha_trim, hrav]

/-- The no-consecutive-LF chain for the in-block comment span
`<last author rune> '\n' <comment> '\n'`. -/
theorem chain_comment {ra : Char} {cm : List Char} (hne : cm ≠ [])
    (hra : ra ≠ '\n')
    (hch : List.Chain' (fun a b => a = '\n' → b ≠ '\n') cm)
    (hh : cm.head? ≠ some '\n') (hl : cm.getLast? ≠ some '\n') :
    List.Chain' (fun a b => a = '\n' → b ≠ '\n') (ra :: '\n' :: (cm ++ ['\n'])) := by
  cases cm with
  | nil => exact absurd rfl hne
  | cons c0 cm' =>
    have hc0 : c0 ≠ '\n' := by
      intro h
      exact hh (by rw [List.head?_cons, h])
    refine List.chain'_cons.mpr ⟨fun h => absurd h hra, ?_⟩
    rw [show (c0 :: cm') ++ ['\n'] = c0 :: (cm' ++ ['\n']) from rfl]
    refine List.chain'_cons.mpr ⟨fun _ => hc0, ?_⟩
    rw [show c0 :: (cm' ++ ['\n']) = (c0 :: cm') ++ ['\n'] from rfl,
        List.chain'_append]
    refine ⟨hch, List.chain'_singleton _, ?_⟩
    intro x hx y hy hxn
    exact absurd (hxn ▸ hx) hl

/-! ## Claim C2 -/

/-- C2 counterexample: the revision `{ID, "", "", "a*b"}` does not
round-trip — the decoder's `*` peek consumes and drops the `b`, so the
decoded SQL is `a*`, not a whitespace-trimming of `a*b`. -/
theorem c2_counterexample :
    unmarshalRevision (revString ⟨"20060102150405", "", "", "a*b"⟩) =
      .ok ⟨"20060102150405", "", "", "a*"⟩ ∧
    trimS "a*b" ≠ "a*" := ⟨by decide, by decide⟩

/-- C2 (amended: the fields must avoid the decoder's control sequences:
no `*` in Author, Comment or SQL, no `:` in the Comment, a single-line
Author not ending in `/`, and a Comment without consecutive, leading or
trailing line feeds; equality is then modulo whitespace trimming on
Author as well as Comment and SQL): decoding the encoded form succeeds
and recovers the revision. -/
theorem c2_roundtrip (r : Revision)
    (hid : (parseRevisionId r.ID.data).isSome = true)
    (ha1 : ∀ c ∈ r.Author.data, c ≠ '*' ∧ c ≠ '\n')
    (ha2 : r.Author.data.getLastD ' ' ≠ '/')
    (hc1 : ∀ c ∈ r.Comment.data, c ≠ '*' ∧ c ≠ ':')
    (hc2 : List.Chain' (fun a b => a = '\n' → b ≠ '\n') r.Comment.data)
    (hc3 : r.Comment.data.head? ≠ some '\n')
    (hc4 : r.Comment.data.getLast? ≠ some '\n')
    (hs : ∀ c ∈ r.SQL.data, c ≠ '*') :
    unmarshalRevision (revString r) =
      .ok ⟨r.ID, trimS r.Author, trimS r.Comment, trimS r.SQL⟩ := by
  obtain ⟨k, hk⟩ := Option.isSome_iff_exists.mp hid
  have hra_nl : r.Author.data.getLastD ' ' ≠ '\n' :=
    getLastD_ne (fun c hc => (ha1 c hc).2) (by decide)
  rw [unmarshalRevision, revString]
  by_cases hcm : r.Comment = ""
  · rw [if_neg (fun h => h hcm)]
    simp only [String.data_append, List.append_assoc, List.nil_append]
    rw [decode_header r.ID.data r.Author.data _ k hk ha1]
    rw [show ((['*', '/', '\n', '\n'] : List Char) ++ r.SQL.data) =
        '*' :: '/' :: '\n' :: '\n' :: r.SQL.data from rfl]
    rw [step_star_slash _ ha2]
    show decLoop ⟨[], '*', true, trimL r.Author.data, r.ID.data, []⟩ _ = _
    rw [step_close _ rfl]
    show decLoop ⟨[], '*', false, trimL r.Author.data, r.ID.data, []⟩ _ = _
    rw [show ('\n' :: '\n' :: r.SQL.data) =
        ('\n' :: '\n' :: r.SQL.data) ++ [] from (List.append_nil _).symm]
    rw [consume_chunk ('\n' :: '\n' :: r.SQL.data) _ _
      (by
        intro c hc
        rcases List.mem_cons.mp hc with rfl | hc
        · decide
        · rcases List.mem_cons.mp hc with rfl | hc
          · decide
          · exact hs c hc)
      (by intro hx; exact Bool.noConfusion hx)
      (fun _ hh => absurd (Option.some.inj hh)
        (show ('\n' : Char) ≠ '/' by decide))]
    show finishDec ⟨[] ++ ('\n' :: '\n' :: r.SQL.data), _, false,
        trimL r.Author.data, r.ID.data, []⟩ = _
    rw [finishDec]
    show (if (parseRevisionId r.ID.data).isSome = true then _ else _) = _
    rw [if_pos hid]
    show DecOut.ok ⟨String.mk r.ID.data, String.mk (trimL r.Author.data),
        String.mk [], String.mk (trimL ([] ++ ('\n' :: '\n' :: r.SQL.data)))⟩ = _
    rw [List.nil_append, trimL_cons_space (by decide) _,
        trimL_cons_space (by decide) _, hcm]
    rfl
  · rw [if_pos hcm]
    simp only [String.data_append, List.append_assoc, List.nil_append]
    rw [decode_header r.ID.data r.Author.data _ k hk ha1]
    have hcmne : r.Comment.data ≠ [] := string_data_ne_nil hcm
    rw [show ((['\n'] : List Char) ++ (r.Comment.data ++ (['\n'] ++
          (['*', '/', '\n', '\n'] ++ r.SQL.data)))) =
        ('\n' :: (r.Comment.data ++ ['\n'])) ++
          ('*' :: '/' :: '\n' :: '\n' :: r.SQL.data) from by simp]
    rw [consume_block ('\n' :: (r.Comment.data ++ ['\n'])) _ _
      rfl
      (by
        intro c hc
        rcases List.mem_cons.mp hc with rfl | hc
        · exact ⟨by decide, by decide⟩
        · rcases List.mem_append.mp hc with hc | hc
          · exact hc1 c hc
          · have : c = '\n' := by simpa using hc
            subst this
            exact ⟨by decide, by decide⟩)
      (by intro c hc; exact absurd hc (List.not_mem_nil c))
      (chain_comment hcmne hra_nl hc2 hc3 hc4)
      (getLastD_ne (fun c hc => (ha1 c hc).1) (by decide))]
    have hlast : ('\n' :: (r.Comment.data ++ ['\n'])).getLastD
        (r.Author.data.getLastD ' ') = '\n' := by
      rw [List.getLastD_cons, getLastD_append]
      rfl
    rw [hlast]
    show decLoop ⟨[] ++ ('\n' :: (r.Comment.data ++ ['\n'])), '\n', true,
        trimL r.Author.data, r.ID.data, []⟩ _ = _
    rw [step_star_slash _ (by intro h; exact absurd h (show ('\n' : Char) ≠ '/' by decide))]
    show decLoop ⟨[] ++ ('\n' :: (r.Comment.data ++ ['\n'])), '*', true,
        trimL r.Author.data, r.ID.data, []⟩ _ = _
    rw [step_close _ rfl]
    show decLoop ⟨[], '*', false, trimL r.Author.data, r.ID.data,
        trimL ([] ++ ('\n' :: (r.Comment.data ++ ['\n'])))⟩ _ = _
    have hcomment : trimL ([] ++ ('\n' :: (r.Comment.data ++ ['\n']))) =
        trimL r.Comment.data := by
      rw [List.nil_append, trimL_cons_space (by decide) _,
          trimL_append_space (by decide) _]
    rw [hcomment]
    rw [show ('\n' :: '\n' :: r.SQL.data) =
        ('\n' :: '\n' :: r.SQL.data) ++ [] from (List.append_nil _).symm]
    rw [consume_chunk ('\n' :: '\n' :: r.SQL.data) _ _
      (by
        intro c hc
        rcases List.mem_cons.mp hc with rfl | hc
        · decide
        · rcases List.mem_cons.mp hc with rfl | hc
          · decide
          · exact hs c hc)
      (by intro hx; exact Bool.noConfusion hx)
      (fun _ hh => absurd (Option.some.inj hh)
        (show ('\n' : Char) ≠ '/' by decide))]
    show finishDec ⟨[] ++ ('\n' :: '\n' :: r.SQL.data), _, false,
        trimL r.Author.data, r.ID.data, trimL r.Comment.data⟩ = _
    rw [finishDec]
    show (if (parseRevisionId r.ID.data).isSome = true then _ else _) = _
    rw [if_pos hid]
    show DecOut.ok ⟨String.mk r.ID.data, String.mk (trimL r.Author.data),
        String.mk (trimL r.Comment.data),
        String.mk (trimL ([] ++ ('\n' :: '\n' :: r.SQL.data)))⟩ = _
    rw [List.nil_append, trimL_cons_space (by decide) _,
        trimL_cons_space (by decide) _]
    rfl

/-- C2 witness: a concrete clean revision round-trips. -/
theorem c2_witness :
    unmarshalRevision (revString ⟨"20060102150405", "Jane", "hi", "SELECT 1"⟩) =
      .ok ⟨"20060102150405", trimS "Jane", trimS "hi", trimS "SELECT 1"⟩ :=
  c2_roundtrip ⟨"20060102150405", "Jane", "hi", "SELECT 1"⟩ (by decide)
    (by decide) (by decide) (by decide)
    (List.chain'_cons.mpr ⟨fun h => absurd h (by decide),
      List.chain'_singleton _⟩)
    (by decide) (by decide) (by decide)

/-! ## Claim C8 -/

/-- C8 counterexample: the byte `X` before the opening `/*` does not
become part of the decoded SQL — it is buffered into the metadata
buffer and discarded when the `Revision:` line matches. -/
theorem c8_counterexample :
    unmarshalRevision "X/*\nRevision: 20060102150405\n*/\nSELECT 1" =
      .ok ⟨"20060102150405", "", "", "SELECT 1"⟩ ∧
    'X' ∉ "SELECT 1".data := ⟨by decide, by decide⟩

/-- C8 (amended): in an accepted input, bytes after the closing `*/`
(free of `*`) do become the SQL body, but bytes before the opening `/*`
(free of `*` and `:`) are folded into the metadata buffer and are
discarded at the `Revision:` field match — they appear in neither the
SQL nor the Comment. -/
theorem c8_pre_block (pre idc sq : List Char) (k : Int)
    (hidp : parseRevisionId idc = some k)
    (hpre : ∀ c ∈ pre, c ≠ '*' ∧ c ≠ ':')
    (hsq : ∀ c ∈ sq, c ≠ '*') :
    unmarshalRevision (String.mk (pre ++ ('/' :: '*' :: '\n' ::
        (['R', 'e', 'v', 'i', 's', 'i', 'o', 'n', ':', ' '] ++
         (idc ++ ('\n' :: '*' :: '/' :: '\n' :: sq)))))) =
      .ok ⟨String.mk idc, "", "", String.mk (trimL sq)⟩ := by
  obtain ⟨hne, hdig⟩ := parse_digits hidp
  have hidf := id_char_facts hidp
  have hrp : pre.getLastD (Char.ofNat 0) ≠ '*' :=
    getLastD_ne (fun c hc => (hpre c hc).1) (by decide)
  rw [unmarshalRevision]
  show decLoop initSt (pre ++ ('/' :: '*' :: '\n' ::
      (['R', 'e', 'v', 'i', 's', 'i', 'o', 'n', ':', ' '] ++
       (idc ++ ('\n' :: '*' :: '/' :: '\n' :: sq))))) = _
  rw [consume_chunk pre _ _
    (fun c hc => (hpre c hc).1)
    (by intro hx; exact Bool.noConfusion hx)
    (fun hx _ => absurd hx (show initSt.r0 ≠ '*' by decide))]
  show decLoop ⟨pre, pre.getLastD (Char.ofNat 0), false, [], [], []⟩ _ = _
  rw [step_cont _ (by decide) (fun hh => hrp hh.2) (fun hh => Bool.noConfusion hh.1)]
  show decLoop ⟨pre ++ ['/'], '/', false, [], [], []⟩ _ = _
  rw [step_open _ rfl]
  show decLoop ⟨pre ++ ['/'], '/', true, [], [], []⟩ _ = _
  rw [step_nl_nocolon _ rfl (show ('/' : Char) ≠ '\n' by decide)
    (firstColonIdx_none (by
      intro c hc
      rcases List.mem_append.mp hc with hc1 | hc2
      · exact (hpre c hc1).2
      · have : c = '/' := by simpa using hc2
        subst this
        decide))]
  show decLoop ⟨(pre ++ ['/']) ++ ['\n'], '\n', true, [], [], []⟩ _ = _
  rw [show ((['R', 'e', 'v', 'i', 's', 'i', 'o', 'n', ':', ' '] : List Char) ++
      (idc ++ ('\n' :: '*' :: '/' :: '\n' :: sq))) =
      ((['R', 'e', 'v', 'i', 's', 'i', 'o', 'n', ':', ' '] ++ idc) ++
        ('\n' :: '*' :: '/' :: '\n' :: sq)) from
    (List.append_assoc _ _ _).symm]
  rw [consume_chunk (['R', 'e', 'v', 'i', 's', 'i', 'o', 'n', ':', ' '] ++ idc) _ _
    (by
      intro c hc
      rcases List.mem_append.mp hc with hc1 | hc2
      · have hR : ∀ x ∈ (['R', 'e', 'v', 'i', 's', 'i', 'o', 'n', ':', ' '] :
            List Char), x ≠ '*' := by decide
        exact hR c hc1
      · exact (hidf c hc2).1)
    (by
      intro _ c hc
      rcases List.mem_append.mp hc with hc1 | hc2
      · have hR : ∀ x ∈ (['R', 'e', 'v', 'i', 's', 'i', 'o', 'n', ':', ' '] :
            List Char), x ≠ '\n' := by decide
        exact hR c hc1
      · exact (hidf c hc2).2.2.1)
    (by intro hx; exact absurd hx (show ('\n' : Char) ≠ '*' by decide))]
  show decLoop ⟨((pre ++ ['/']) ++ ['\n']) ++
      (['R', 'e', 'v', 'i', 's', 'i', 'o', 'n', ':', ' '] ++ idc),
      ((['R', 'e', 'v', 'i', 's', 'i', 'o', 'n', ':', ' '] : List Char) ++
        idc).getLastD '\n', true, [], [], []⟩ _ = _
  have hrdv : ((['R', 'e', 'v', 'i', 's', 'i', 'o', 'n', ':', ' '] : List Char)
      ++ idc).getLastD '\n' = idc.getLastD ' ' := by
    rw [getLastD_append, getLastD_irrel _ ' ' hne]
  have hrd_mem : idc.getLastD ' ' ∈ idc := getLastD_mem ' ' hne
  rw [step_nl_revision _ ((pre ++ ['/']) ++ ['\n']) (' ' :: idc)
    rfl
    (by
      show ((['R', 'e', 'v', 'i', 's', 'i', 'o', 'n', ':', ' '] : List Char) ++
        idc).getLastD '\n' ≠ '\n'
      rw [hrdv]
      exact (hidf _ hrd_mem).2.2.1)
    (by
      intro c hc
      rcases List.mem_append.mp hc with hc1 | hc2
      · rcases List.mem_append.mp hc1 with hc3 | hc4
        · exact (hpre c hc3).2
        · have : c = '/' := by simpa using hc4
          subst this
          decide
      · have : c = '\n' := by simpa using hc2
        subst this
        decide)
    (by
      show ((pre ++ ['/']) ++ ['\n']) ++
          (['R', 'e', 'v', 'i', 's', 'i', 'o', 'n', ':', ' '] ++ idc) =
        ((pre ++ ['/']) ++ ['\n']) ++ ("Revision".data ++ ':' :: ' ' :: idc)
      have h0 : (['R', 'e', 'v', 'i', 's', 'i', 'o', 'n', ':', ' '] : List Char)
          ++ idc = "Revision".data ++ ':' :: ' ' :: idc := by
        have h1 : (['R', 'e', 'v', 'i', 's', 'i', 'o', 'n', ':', ' '] :
            List Char) = "Revision".data ++ ':' :: [' '] := by decide
        rw [h1, List.append_assoc]
        rfl
      rw [h0])]
  show decLoop ⟨[], ((['R', 'e', 'v', 'i', 's', 'i', 'o', 'n', ':', ' '] :
      List Char) ++ idc).getLastD '\n', true, [], trimL (' ' :: idc), []⟩ _ = _
  have hid_trim : trimL (' ' :: idc) = idc := by
    rw [trimL_cons_space (by decide)]
    exact trimL_no_space (fun c hc => (hidf c hc).2.2.2.2)
  rw [hid_trim, hrdv]
  rw [step_star_slash _ (fun hx => absurd hx (hidf _ hrd_mem).2.2.2.1)]
  show decLoop ⟨[], '*', true, [], idc, []⟩ _ = _
  rw [step_close _ rfl]
  show decLoop ⟨[], '*', false, [], idc, []⟩ _ = _
  rw [show ('\n' :: sq) = ('\n' :: sq) ++ [] from (List.append_nil _).symm]
  rw [consume_chunk ('\n' :: sq) _ _
    (by
      intro c hc
      rcases List.mem_cons.mp hc with rfl | hc
      · decide
      · exact hsq c hc)
    (by intro hx; exact Bool.noConfusion hx)
    (fun _ hh => absurd (Option.some.inj hh)
      (show ('\n' : Char) ≠ '/' by decide))]
  show finishDec ⟨[] ++ ('\n' :: sq), _, false, [], idc, []⟩ = _
  rw [finishDec]
  show (if (parseRevisionId idc).isSome = true then _ else _) = _
  rw [if_pos (by rw [hidp]; rfl)]
  show DecOut.ok ⟨String.mk idc, String.mk [], String.mk [],
      String.mk (trimL ([] ++ ('\n' :: sq)))⟩ = _
  rw [List.nil_append, trimL_cons_space (by decide) _]

/-- C8 witness: one pre-block byte `X`, a valid ID and a plain SQL
body. -/
theorem c8_witness :
    unmarshalRevision (String.mk (['X'] ++ ('/' :: '*' :: '\n' ::
        (['R', 'e', 'v', 'i', 's', 'i', 'o', 'n', ':', ' '] ++
         ("20060102150405".data ++
          ('\n' :: '*' :: '/' :: '\n' :: "SELECT 1".data)))))) =
      .ok ⟨String.mk "20060102150405".data, "", "",
           String.mk (trimL "SELECT 1".data)⟩ :=
  c8_pre_block ['X'] "20060102150405".data "SELECT 1".data 1136214245
    (by decide) (by decide) (by decide)

/-! ## Claim C3 -/

/-- C3 counterexample: called with an empty list of revisions,
`PerformRevisions` does not return an empty aggregate as nil — it
panics (`Slice` walks the nil root). -/
theorem c3_counterexample :
    performRevisions ⟨[], []⟩ 0 [] = none := rfl

/-- C3 (amended: at least one revision with a valid ID, so that `Slice`
does not panic): `PerformRevisions` feeds the loop the sorted slice —
a permutation of the valid revisions in ascending key order; the loop
appends any `ErrPerformed`-caused error to the aggregate and continues,
aborts immediately on any other error returning it directly, and
returns an empty aggregate as nil. -/
theorem c3_perform_revisions :
    (∀ (db : DB) (now : Int) (revs : List Revision) (r0 : Revision),
      r0 ∈ revs → validB r0 = true →
      performRevisions db now revs =
        some (performLoop now db (sliceD (putAll revs)) []) ∧
      (sliceD (putAll revs)).Perm (revs.filter validB) ∧
      (sliceD (putAll revs)).Pairwise (fun a b => keyOf a ≤ keyOf b)) ∧
    (∀ (now : Int) (db db1 : DB) (acc : List Err) (r : Revision)
      (rest : List Revision) (e : Err),
      r.perform db now = (db1, some e) → isPerformed e = true →
      performLoop now db (r :: rest) acc = performLoop now db1 rest (acc ++ [e])) ∧
    (∀ (now : Int) (db db1 : DB) (acc : List Err) (r : Revision)
      (rest : List Revision) (e : Err),
      r.perform db now = (db1, some e) → isPerformed e = false →
      performLoop now db (r :: rest) acc = (db1, some e)) ∧
    (∀ (now : Int) (db : DB) (acc : List Err),
      performLoop now db [] acc =
        (db, if acc.isEmpty then none else some (Err.errors acc))) := by
  refine ⟨?_, ?_, ?_, ?_⟩
  · intro db now revs r0 hmem hval
    have hne : keyed revs ≠ [] := by
      intro hnil
      have := mem_keyed_of_valid hmem hval
      rw [hnil] at this
      simp at this
    obtain ⟨hslice, hperm, hpw⟩ := sliceD_spec revs hne
    refine ⟨?_, hperm, hpw⟩
    rw [performRevisions, hslice]
  · intro now db db1 acc r rest e hp hise
    rw [performLoop, hp]
    simp [hise]
  · intro now db db1 acc r rest e hp hise
    rw [performLoop, hp]
    simp [hise]
  · intro now db acc
    rw [performLoop, errsErr]

/-- C3 witness: a revision already recorded in the tracking table is
appended to the aggregate and the loop continues. -/
theorem c3_witness :
    performLoop 0 ⟨[⟨"20060102150405", "", "", "S", 0⟩], []⟩
      [⟨"20060102150405", "a", "c", "T"⟩] [] =
    performLoop 0 ⟨[⟨"20060102150405", "", "", "S", 0⟩], []⟩ []
      [Err.revisionError "20060102150405" Err.errPerformed] :=
  c3_perform_revisions.2.1 0 ⟨[⟨"20060102150405", "", "", "S", 0⟩], []⟩
    ⟨[⟨"20060102150405", "", "", "S", 0⟩], []⟩ [] ⟨"20060102150405", "a", "c", "T"⟩
    [] (Err.revisionError "20060102150405" Err.errPerformed) rfl rfl

/-! ## Claim C4 -/

/-- C4 counterexample: for the empty multiset of revisions (all of
whose IDs vacuously parse), `Slice` does not return them all in order —
it panics on the nil root. -/
theorem c4_counterexample : (putAll []).slice = none := rfl

/-- C4 (amended: nonempty multiset): after `Put`-ing a nonempty list of
revisions with parseable IDs, `Slice` returns exactly those revisions
(a permutation) in non-decreasing order of the Unix seconds of their
parsed IDs, and `Len` is the number of (all successful) `Put` calls. -/
theorem c4_collection_sorted (revs : List Revision) (hne : revs ≠ [])
    (hv : ∀ r ∈ revs, validB r = true) :
    (putAll revs).slice = some (sliceD (putAll revs)) ∧
    (sliceD (putAll revs)).Perm revs ∧
    (sliceD (putAll revs)).Pairwise (fun a b => keyOf a ≤ keyOf b) ∧
    (putAll revs).len = revs.length := by
  have hfilter : revs.filter validB = revs := List.filter_eq_self.mpr hv
  have hkne : keyed revs ≠ [] := by
    rcases revs with - | ⟨r, rest⟩
    · exact absurd rfl hne
    · intro hnil
      have := mem_keyed_of_valid (List.mem_cons_self r rest) (hv r (by simp))
      rw [hnil] at this
      simp at this
  obtain ⟨hslice, hperm, hpw⟩ := sliceD_spec revs hkne
  rw [hfilter] at hperm
  refine ⟨hslice, hperm, hpw, ?_⟩
  rw [putAll_eq_foldPut, foldPut_len, emptyCollection]
  simp [List.countP_eq_length.mpr hv]

/-- C4 witness: the three revisions of the spec's ordering scenario. -/
theorem c4_witness :
    (putAll [⟨"20240303120000", "", "", "C"⟩, ⟨"20240101000000", "", "", "A"⟩,
             ⟨"20240202000000", "", "", "B"⟩]).slice =
      some (sliceD (putAll [⟨"20240303120000", "", "", "C"⟩,
             ⟨"20240101000000", "", "", "A"⟩, ⟨"20240202000000", "", "", "B"⟩])) ∧
    (sliceD (putAll [⟨"20240303120000", "", "", "C"⟩, ⟨"20240101000000", "", "", "A"⟩,
             ⟨"20240202000000", "", "", "B"⟩])).Perm
      [⟨"20240303120000", "", "", "C"⟩, ⟨"20240101000000", "", "", "A"⟩,
       ⟨"20240202000000", "", "", "B"⟩] ∧
    (sliceD (putAll [⟨"20240303120000", "", "", "C"⟩, ⟨"20240101000000", "", "", "A"⟩,
             ⟨"20240202000000", "", "", "B"⟩])).Pairwise
      (fun a b => keyOf a ≤ keyOf b) ∧
    (putAll [⟨"20240303120000", "", "", "C"⟩, ⟨"20240101000000", "", "", "A"⟩,
             ⟨"20240202000000", "", "", "B"⟩]).len = 3 :=
  c4_collection_sorted _ (by decide) (by decide)

/-! ## Claim C9 -/

/-- C9: `Slice` on the zero-value `Collection` panics (nil root
dereference), and consequently `PerformRevisions` panics instead of
succeeding whenever every supplied revision has an empty or unparseable
ID (in particular when it is given no revisions at all). -/
theorem c9_empty_slice_panics :
    emptyCollection.slice = none ∧
    ∀ (db : DB) (now : Int) (revs : List Revision),
      (∀ r ∈ revs, validB r = false) → performRevisions db now revs = none := by
  refine ⟨rfl, ?_⟩
  intro db now revs h
  have hput : putAll revs = emptyCollection := by
    rw [putAll_eq_foldPut]
    exact foldPut_invalid h emptyCollection
  rw [performRevisions, hput]
  rfl

/-- C9 witness: one revision with an unparseable ID. -/
theorem c9_witness :
    performRevisions ⟨[], []⟩ 0 [⟨"bogus", "", "", "SELECT 1"⟩] = none :=
  c9_empty_slice_panics.2 ⟨[], []⟩ 0 [⟨"bogus", "", "", "SELECT 1"⟩] (by decide)

/-! ## Claim C10 -/

/-- C10: `PerformRevisions` discards the error `Put` returns: a
revision with an empty or unparseable ID leaves the collection
untouched (`Put` returns `ErrInvalid`), so the whole run is identical
to the run on the valid revisions only — the invalid ones are never
executed, never recorded, and contribute no error to the result. -/
theorem c10_invalid_silently_dropped :
    (∀ (c : Collection) (r : Revision), validB r = false →
      c.put r = (c, some Err.errInvalid)) ∧
    (∀ (db : DB) (now : Int) (revs : List Revision),
      performRevisions db now revs =
        performRevisions db now (revs.filter validB)) := by
  refine ⟨fun c r h => put_of_invalid h, ?_⟩
  intro db now revs
  have hput : putAll (revs.filter validB) = putAll revs := by
    rw [putAll_eq_foldPut, putAll_eq_foldPut]
    exact foldPut_filter revs emptyCollection
  rw [performRevisions, performRevisions, hput]

/-- C10 witness: `Put` of an unparseable ID returns the collection
unchanged together with `ErrInvalid`. -/
theorem c10_witness :
    emptyCollection.put ⟨"bogus", "", "", "SELECT 1"⟩ =
      (emptyCollection, some Err.errInvalid) :=
  c10_invalid_silently_dropped.1 emptyCollection ⟨"bogus", "", "", "SELECT 1"⟩ rfl

/-! ## Claim C1 -/

/-- C1 counterexample: the claim quantifies over every revision with a
valid 14-digit ID, but for a revision with empty SQL `Perform` returns
nil twice — the second call does not return an `ErrPerformed`-caused
error. -/
theorem c1_counterexample :
    (⟨"20060102150405", "", "", ""⟩ : Revision).perform ⟨[], []⟩ 0 = (⟨[], []⟩, none) ∧
    (⟨"20060102150405", "", "", ""⟩ : Revision).perform ⟨[], []⟩ 1 = (⟨[], []⟩, none) :=
  ⟨rfl, rfl⟩

/-- C1 (amended with nonempty SQL): if `Perform` of a revision with a
valid ID and nonempty SQL returns nil, then performing it again against
the resulting database returns `RevisionError{ID, ErrPerformed}` —
whose `Unwrap` is `ErrPerformed` — leaves the database unchanged, and
in particular does not execute the SQL a second time. -/
theorem c1_perform_at_most_once (r : Revision) (db db2 : DB) (now now2 : Int)
    (hid : (parseRevisionId r.ID.data).isSome)
    (hsql : r.SQL ≠ "")
    (h1 : r.perform db now = (db2, none)) :
    r.perform db2 now2 = (db2, some (.revisionError r.ID .errPerformed)) ∧
    unwrapErr (.revisionError r.ID .errPerformed) = some .errPerformed := by
  obtain ⟨k, hk⟩ := Option.isSome_iff_exists.mp hid
  simp only [Revision.perform, if_neg hsql] at h1 ⊢
  cases hrp : revisionPerformed db r with
  | some e => rw [hrp] at h1; simp at h1
  | none =>
    rw [hrp] at h1
    simp only [Prod.mk.injEq] at h1
    have hdb2 : db2 = ⟨db.rows ++ [⟨r.ID, r.Author, r.Comment, r.SQL, now⟩],
        db.execLog ++ [r.SQL]⟩ := h1.1.symm
    have hperf : revisionPerformed db2 r =
        some (.revisionError r.ID .errPerformed) := by
      rw [revisionPerformed, hk, hdb2]
      simp
    rw [hperf]
    exact ⟨rfl, rfl⟩

/-- C1 witness at a concrete revision and empty database. -/
theorem c1_witness :
    (⟨"20060102150405", "a", "c", "SELECT 1"⟩ : Revision).perform
      ⟨[⟨"20060102150405", "a", "c", "SELECT 1", 0⟩], ["SELECT 1"]⟩ 1 =
      (⟨[⟨"20060102150405", "a", "c", "SELECT 1", 0⟩], ["SELECT 1"]⟩,
       some (.revisionError "20060102150405" .errPerformed)) ∧
    unwrapErr (.revisionError "20060102150405" .errPerformed) = some .errPerformed :=
  c1_perform_at_most_once ⟨"20060102150405", "a", "c", "SELECT 1"⟩ ⟨[], []⟩ _ 0 1
    (by decide) (by decide) rfl

/-! ## Claim C5 -/

/-- C5: on the input `"/*\nA:\n"` the metadata line `A:` has its colon
at index 3 of the accumulated buffer, and the Go look-back
`buf[pos-6:pos]` slices with a negative index — a runtime panic. -/
theorem c5_lookback_panics :
    unmarshalRevision "/*\nA:\n" = .panic := by
  decide

/-! ## Claim C6 -/

/-- C6: `Perform` of a revision with empty SQL returns nil at once and
leaves the database completely unchanged, whatever the ID and whatever
the database state. -/
theorem c6_empty_sql_noop (r : Revision) (db : DB) (now : Int)
    (h : r.SQL = "") : r.perform db now = (db, none) := by
  simp [Revision.perform, h]

/-- C6 witness: an already-recorded ID with empty SQL is still a no-op. -/
theorem c6_witness :
    (⟨"20240101000000", "a", "c", ""⟩ : Revision).perform
      ⟨[⟨"20240101000000", "a", "c", "X", 0⟩], []⟩ 7 =
      (⟨[⟨"20240101000000", "a", "c", "X", 0⟩], []⟩, none) :=
  c6_empty_sql_noop _ _ _ rfl

/-! ## Claim C7 -/

/-- C7 counterexample: a comment shorter than 72 bytes with a line feed
at position 5 — `Title` returns the whole comment, not the first line,
because the LF cut only happens in the `≥ 72` branch. -/
theorem c7_counterexample :
    indexLF "hello\nworld".data = some 5 ∧
    titleOf "hello\nworld".data ≠ "hello\nworld".data.take 5 := by
  exact ⟨by decide, by decide⟩

/-- C7 (amended: the LF cut applies only to comments of length at least
72): for those, the title is the prefix up to the first LF when it
occurs at a positive index below 72; and every title has at most 72
characters plus the optional `...` suffix. -/
theorem titleCut_length_le {t1 : List Char} (h : t1.length ≤ 75) :
    (titleCut t1).length ≤ 75 := by
  rw [titleCut]
  cases hlf : indexLF t1 with
  | none => exact h
  | some i =>
    dsimp only
    by_cases hi : 0 < i
    · rw [if_pos hi, List.length_take]
      exact le_trans (min_le_right _ _) h
    · rw [if_neg hi]; exact h

theorem c7_title : (∀ c : List Char, (titleOf c).length ≤ 75) ∧
    (∀ (c : List Char) (i : Nat), 72 ≤ c.length → indexLF c = some i →
      0 < i → i < 72 → titleOf c = c.take i) := by
  have hlen : ∀ c : List Char, 72 ≤ c.length → (c.take 72).length = 72 := by
    intro c h; rw [List.length_take]; exact Nat.min_eq_left h
  constructor
  · intro c
    rw [titleOf]
    split
    · rename_i h72
      apply titleCut_length_le
      split
      · rw [List.length_append, hlen c h72]; decide
      · rw [hlen c h72]; omega
    · rename_i h; omega
  · intro c i h72 hlf hpos hlt
    have ht0 : indexLF (c.take 72) = some i := indexLF_take hlf hlt
    rw [titleOf, if_pos h72]
    by_cases hgt : 72 < c.length
    · have ht1 : indexLF (c.take 72 ++ ['.', '.', '.']) = some i :=
        indexLF_append_left _ ht0
      rw [if_pos hgt, titleCut, ht1]
      dsimp only
      rw [if_pos hpos,
          List.take_append_eq_append_take, hlen c h72,
          Nat.sub_eq_zero_of_le (le_of_lt hlt), List.take_zero,
          List.append_nil, List.take_take]
      congr 1
      exact Nat.min_eq_left (le_of_lt hlt)
    · rw [if_neg hgt, titleCut, ht0]
      dsimp only
      rw [if_pos hpos, List.take_take]
      congr 1
      exact Nat.min_eq_left (le_of_lt hlt)

/-- C7 witness: an 80-byte comment with its first LF at index 5. -/
theorem c7_witness :
    72 ≤ ("aaaaa\n".data ++ List.replicate 74 'b').length ∧
    indexLF ("aaaaa\n".data ++ List.replicate 74 'b') = some 5 ∧
    titleOf ("aaaaa\n".data ++ List.replicate 74 'b') =
      ("aaaaa\n".data ++ List.replicate 74 'b').take 5 :=
  ⟨by decide, by decide,
   c7_title.2 _ 5 (by decide) (by decide) (by decide) (by decide)⟩

end Mgrt
